import Mathlib

/-!
# Seat-allocation service: registry and allocation engine

Shallow embedding of the core of `src/app.py`: the student registry backed by
the `students` table, the `api_submit` upsert with validation, the
`api_assign` serial-dictatorship allocation pass (per-seat capacity 2 with the
quota dictionary seeded from all submitted preference lists), and `api_reset`.

The registry is modelled as a list of rows in rowid order; the SQLite
`ORDER BY score DESC, last_updated ASC` snapshot query is modelled as a stable
insertion sort on those keys; the Python quota dict is an association list
with `dict.get(v, 0)` / `dict.setdefault(v, 2)` semantics.
-/

namespace SeatAlloc

/-- One row of the `students` table: `id` (AUTOINCREMENT primary key), `name`,
`score`, `volunteers` (the JSON-encoded preference list), `admitted`
(NULL-able admitted seat) and `last_updated`. -/
structure Student where
  id : Nat
  name : String
  score : Int
  volunteers : List String
  admitted : Option String
  lastUpdated : Nat
deriving Repr, DecidableEq

/-- The transient per-pass quota dictionary `seat_quota`, an association list
from seat name to remaining quota. -/
abbrev Quota := List (String × Int)

/-- `seat_quota.get(v, 0)`: value of the first entry with key `v`, default 0. -/
def qget (q : Quota) (v : String) : Int :=
  match q.find? (fun p => p.1 = v) with
  | some p => p.2
  | none => 0

/-- `v in seat_quota`: whether the dictionary has an entry for key `v`. -/
def qhas (q : Quota) (v : String) : Prop :=
  (q.find? (fun p => p.1 = v)).isSome

instance (q : Quota) (v : String) : Decidable (qhas q v) := by
  unfold qhas; infer_instance

/-- `seat_quota.setdefault(v, d)`: insert `(v, d)` only when `v` is absent. -/
def qsetdefault (q : Quota) (v : String) (d : Int) : Quota :=
  if qhas q v then q else q ++ [(v, d)]

/-- `seat_quota[v] -= 1`: decrement the value stored at key `v`. -/
def qdec (q : Quota) (v : String) : Quota :=
  q.map (fun p => if p.1 = v then (p.1, p.2 - 1) else p)

/-- Inner seeding loop: `for v in s["volunteers"]: seat_quota.setdefault(v, 2)`. -/
def seedVols (q : Quota) : List String → Quota
  | [] => q
  | v :: vs => seedVols (qsetdefault q v 2) vs

/-- Outer seeding loop of `api_assign` (lines 177–180): every string appearing
in any snapshot record's preference list gets default quota 2. -/
def seedAll (q : Quota) : List Student → Quota
  | [] => q
  | s :: ss => seedAll (seedVols q s.volunteers) ss

/-- The seeded `seat_quota` for a snapshot. -/
def seedQuota (students : List Student) : Quota :=
  seedAll [] students

/-- One entry of `process_log`. -/
structure LogEntry where
  student : String
  score : Int
  volunteer : String
  result : String
deriving Repr, DecidableEq

/-- The log entry appended on a successful assignment (lines 189–194). -/
def mkLog (s : Student) (v : String) : LogEntry :=
  ⟨s.name, s.score, v, "分配成功"⟩

/-- The inner volunteer scan of `api_assign` (lines 184–195): the first seat
with `seat_quota.get(vol, 0) > 0` is taken, its quota decremented, one log
entry produced; otherwise the scan continues, ending unassigned. Returns
(admitted, updated quota, log entries produced). -/
def scanVols (s : Student) (q : Quota) : List String → Option String × Quota × List LogEntry
  | [] => (none, q, [])
  | v :: vs =>
      if 0 < qget q v then (some v, qdec q v, [mkLog s v])
      else scanVols s q vs

/-- `UPDATE students SET admitted = ? WHERE id = ?`. -/
def setAdmitted (reg : List Student) (i : Nat) (a : Option String) : List Student :=
  reg.map (fun t => if t.id = i then { t with admitted := a } else t)

/-- The main loop of `api_assign` (lines 182–196) run against the table:
process snapshot records in order, threading the quota and writing each
record's admitted seat back by id. Returns the table after the loop and the
accumulated `process_log`. -/
def assignLoop (reg : List Student) (q : Quota) : List Student → List Student × List LogEntry
  | [] => (reg, [])
  | s :: ss =>
      let r := scanVols s q s.volunteers
      let out := assignLoop (setAdmitted reg s.id r.1) r.2.1 ss
      (out.1, r.2.2 ++ out.2)

/-- Strict canonical priority: higher score first, then earlier
`last_updated` (the `ORDER BY score DESC, last_updated ASC` keys). -/
def keyLT (a b : Student) : Prop :=
  b.score < a.score ∨ (a.score = b.score ∧ a.lastUpdated < b.lastUpdated)

instance (a b : Student) : Decidable (keyLT a b) := by
  unfold keyLT; infer_instance

/-- Stable insertion of a row into an already-sorted snapshot prefix: the new
row goes after every row it does not strictly precede. -/
def insertByPriority (s : Student) : List Student → List Student
  | [] => [s]
  | t :: ts => if keyLT s t then s :: t :: ts else t :: insertByPriority s ts

/-- The snapshot query `SELECT * FROM students ORDER BY score DESC,
last_updated ASC` (line 165), as a stable sort of the table rows. -/
def snapshotSort (reg : List Student) : List Student :=
  reg.foldl (fun acc s => insertByPriority s acc) []

/-- `api_assign` (lines 160–201): take the canonical snapshot, seed the quota
dictionary from it, run the allocation loop against the table, and return the
updated table together with the process log. -/
def api_assign (reg : List Student) : List Student × List LogEntry :=
  let snap := snapshotSort reg
  assignLoop reg (seedQuota snap) snap

/-- A parsed `/api/submit` request body after the Python-side coercions:
`name` still untrimmed, `score` after `int(...)` (conversion failure yields
−1), `volunteers` after `data.get("volunteers") or []` (absent or non-list
is modelled by `[]`, which the validator rejects exactly as the code does). -/
structure SubmitReq where
  name : String
  score : Int
  volunteers : List String
deriving Repr, DecidableEq

/-- Python's `str.strip()` on the submitted name: drop leading and trailing
whitespace characters (an executable model of `String.trim`). -/
def stripName (s : String) : String :=
  ⟨((s.data.dropWhile Char.isWhitespace).reverse.dropWhile
      Char.isWhitespace).reverse⟩

/-- `api_submit` (lines 81–110): validate, then upsert by (trimmed) name.
On an existing name, the row found by `SELECT id FROM students WHERE name = ?`
gets `score`, `volunteers`, `last_updated` replaced and `admitted` set to
NULL; otherwise a new row is inserted with `admitted` NULL. Errors are
returned before any write. Returns the new (registry, next rowid) on
success. -/
def api_submit (reg : List Student) (nextId : Nat) (req : SubmitReq) (now : Nat) :
    Except String (List Student × Nat) :=
  let name := stripName req.name
  if name = "" then .error "name required"
  else if req.score < 0 then .error "score invalid"
  else if req.volunteers = [] then .error "volunteers list required"
  else
    match reg.find? (fun t => t.name = name) with
    | some r =>
        .ok (reg.map (fun t =>
          if t.id = r.id then
            { t with score := req.score, volunteers := req.volunteers,
                     admitted := none, lastUpdated := now }
          else t), nextId)
    | none =>
        .ok (reg ++ [⟨nextId, name, req.score, req.volunteers, none, now⟩], nextId + 1)

/-- `api_reset` (lines 151–158): `DELETE FROM students`. -/
def api_reset (_reg : List Student) : List Student := []

/-- The core operations reachable through the HTTP facade. -/
inductive Op where
  | submit (req : SubmitReq) (now : Nat)
  | assign
  | reset

/-- One operation applied to the persistent state (registry rows in rowid
order, next AUTOINCREMENT id). A failed submit leaves the state unchanged. -/
def step (st : List Student × Nat) (op : Op) : List Student × Nat :=
  match op with
  | .submit req now =>
      match api_submit st.1 st.2 req now with
      | .ok st' => st'
      | .error _ => st
  | .assign => ((api_assign st.1).1, st.2)
  | .reset => (api_reset st.1, st.2)

/-- The state reached from the empty database by a sequence of operations. -/
def runOps (ops : List Op) : List Student × Nat :=
  ops.foldl step ([], 1)

/-- The `/api/assign` results listing `SELECT name, admitted FROM students
ORDER BY name ASC`: stable insertion of one pair. -/
def insertByName (p : String × Option String) :
    List (String × Option String) → List (String × Option String)
  | [] => [p]
  | t :: ts => if p.1 < t.1 then p :: t :: ts else t :: insertByName p ts

/-- The results projection of the registry, ordered by name. -/
def resultsOf (reg : List Student) : List (String × Option String) :=
  (reg.map (fun t => (t.name, t.admitted))).foldl (fun acc p => insertByName p acc) []

/-! ### A pure reformulation of the allocation loop

`assignLoop` interleaves the quota-threading computation with `UPDATE`
writes against the table. `assignPure` separates the computation: it returns
the per-snapshot-record write list `(id, admitted)` and the process log;
`applyWrites` replays the `UPDATE` statements against one row. `assignLoop`
is proved equal to the composition of the two. -/

/-- The write list and log computed by the loop, without touching the table. -/
def assignPure : List Student → Quota → List (Nat × Option String) × List LogEntry
  | [], _ => ([], [])
  | s :: ss, q =>
      let r := scanVols s q s.volunteers
      let rest := assignPure ss r.2.1
      ((s.id, r.1) :: rest.1, r.2.2 ++ rest.2)

/-- One `UPDATE students SET admitted = w.2 WHERE id = w.1` applied to a row. -/
def applyWrite (t : Student) (w : Nat × Option String) : Student :=
  if t.id = w.1 then { t with admitted := w.2 } else t

/-- Replay a list of admitted-seat writes against one row. -/
def applyWrites (ws : List (Nat × Option String)) (t : Student) : Student :=
  ws.foldl applyWrite t

/-- The value of the last write to a given id, if any. -/
def wlast : List (Nat × Option String) → Nat → Option (Option String)
  | [], _ => none
  | w :: ws, i =>
      match wlast ws i with
      | some a => some a
      | none => if i = w.1 then some w.2 else none

/-- The quota state after processing a prefix of the snapshot. -/
def quotaAfter (q : Quota) : List Student → Quota
  | [] => q
  | s :: ss => quotaAfter (scanVols s q s.volunteers).2.1 ss

/-- All preference strings appearing in a snapshot, in seeding order. -/
def allVols : List Student → List String
  | [] => []
  | s :: ss => s.volunteers ++ allVols ss

/-! ### The specification-side allocation

These definitions follow the spec's own words (§4.3), to be compared with the
embedded code: a capacity constant `C`, a transient consumed-seats counter
starting empty, and for each record in priority order the first preference
whose consumed count is below `C`. -/

/-- The capacity constant `C` of the spec; this implementation uses 2. -/
def specCapacity : Nat := 2

/-- Modelled from the spec: "scan its `preferences` in listed order; for the
first seat name whose consumed count is below capacity `C`, assign that
seat". -/
def specScan (consumed : String → Nat) : List String → Option String
  | [] => none
  | v :: vs => if consumed v < specCapacity then some v else specScan consumed vs

/-- Modelled from the spec: "increment its consumed count". -/
def specBump (consumed : String → Nat) (v : String) : String → Nat :=
  fun w => if w = v then consumed w + 1 else consumed w

/-- Modelled from the spec: step 3 of the serial-dictatorship pass — per
record, assign the first preference below capacity, bump its consumed count
and log `(name, score, seat)`; otherwise leave the record unassigned with no
log entry. Returns the `(id, admitted)` assignment list in priority order and
the log. -/
def specAlloc (consumed : String → Nat) :
    List Student → List (Nat × Option String) × List (String × Int × String)
  | [] => ([], [])
  | s :: ss =>
      match specScan consumed s.volunteers with
      | some v =>
          let r := specAlloc (specBump consumed v) ss
          ((s.id, some v) :: r.1, (s.name, s.score, v) :: r.2)
      | none =>
          let r := specAlloc consumed ss
          ((s.id, none) :: r.1, r.2)

/-- Modelled from the spec: the whole pass, with the consumed counter
"initialize[d] ... empty" (step 2). -/
def specAllocate (snap : List Student) :
    List (Nat × Option String) × List (String × Int × String) :=
  specAlloc (fun _ => 0) snap

/-- The database invariants maintained by every operation: distinct names,
distinct primary-key ids all below the next AUTOINCREMENT value, and every
non-NULL admitted seat drawn from its own row's preference list. -/
def Inv (st : List Student × Nat) : Prop :=
  (st.1.map Student.name).Nodup ∧
  (st.1.map Student.id).Nodup ∧
  (∀ t ∈ st.1, t.id < st.2) ∧
  (∀ t ∈ st.1, ∀ v, t.admitted = some v → v ∈ t.volunteers)

/-- The simulation relation between the code's quota dictionary and the
spec's consumed-seats counter: every known seat's remaining quota is the
capacity 2 minus its consumed count. -/
def SpecRel (q : Quota) (consumed : String → Nat) : Prop :=
  ∀ v, qhas q v → consumed v ≤ 2 ∧ qget q v = 2 - (consumed v : Int)

/-- A row transformation that can only change the `admitted` field: every
field the snapshot ordering or the allocation algorithm reads is kept. -/
def PreservesPayload (f : Student → Student) : Prop :=
  ∀ t : Student, (f t).id = t.id ∧ (f t).name = t.name ∧ (f t).score = t.score ∧
    (f t).volunteers = t.volunteers ∧ (f t).lastUpdated = t.lastUpdated

/-! ### Quota dictionary lemmas -/

theorem qget_of_not_qhas {q : Quota} {v : String} (h : ¬ qhas q v) : qget q v = 0 := by
  unfold qhas at h
  unfold qget
  cases hf : q.find? (fun p => p.1 = v) with
  | none => rfl
  | some p => rw [hf] at h; simp at h

theorem qhas_iff_mem_keys {q : Quota} {v : String} :
    qhas q v ↔ v ∈ q.map Prod.fst := by
  unfold qhas
  rw [List.find?_isSome]
  constructor
  · rintro ⟨p, hp, hpv⟩
    exact List.mem_map.mpr ⟨p, hp, of_decide_eq_true hpv⟩
  · intro hv
    rcases List.mem_map.mp hv with ⟨p, hp, hpv⟩
    exact ⟨p, hp, decide_eq_true hpv⟩

theorem keys_qdec (q : Quota) (v : String) :
    (qdec q v).map Prod.fst = q.map Prod.fst := by
  induction q with
  | nil => rfl
  | cons p q ih =>
      simp only [qdec, List.map_cons] at ih ⊢
      rw [ih]
      by_cases h : p.1 = v <;> simp [h]

theorem qhas_qdec {q : Quota} {v w : String} : qhas (qdec q v) w ↔ qhas q w := by
  rw [qhas_iff_mem_keys, qhas_iff_mem_keys, keys_qdec]

theorem qget_qdec_ne {q : Quota} {v w : String} (h : w ≠ v) :
    qget (qdec q v) w = qget q w := by
  induction q with
  | nil => rfl
  | cons p q ih =>
      simp only [qdec, List.map_cons, qget] at ih ⊢
      by_cases hp : p.1 = v
      · rw [if_pos hp]
        rw [List.find?_cons_of_neg _ (by simp [hp]; exact fun hh => h hh.symm),
            List.find?_cons_of_neg _ (by simp [hp]; exact fun hh => h hh.symm)]
        exact ih
      · rw [if_neg hp]
        by_cases hw : p.1 = w
        · rw [List.find?_cons_of_pos _ (by simp [hw]), List.find?_cons_of_pos _ (by simp [hw])]
        · rw [List.find?_cons_of_neg _ (by simp [hw]), List.find?_cons_of_neg _ (by simp [hw])]
          exact ih

theorem qget_qdec_self {q : Quota} {v : String} (h : qhas q v) :
    qget (qdec q v) v = qget q v - 1 := by
  induction q with
  | nil => simp [qhas] at h
  | cons p q ih =>
      simp only [qdec, List.map_cons, qget] at ih ⊢
      by_cases hp : p.1 = v
      · rw [if_pos hp]
        rw [List.find?_cons_of_pos _ (by simp [hp]), List.find?_cons_of_pos _ (by simp [hp])]
      · rw [if_neg hp]
        rw [List.find?_cons_of_neg _ (by simp [hp]), List.find?_cons_of_neg _ (by simp [hp])]
        apply ih
        unfold qhas at h ⊢
        rwa [List.find?_cons_of_neg _ (by simp [hp])] at h

theorem qhas_qsetdefault {q : Quota} {v w : String} {d : Int} :
    qhas (qsetdefault q v d) w ↔ qhas q w ∨ w = v := by
  unfold qsetdefault
  by_cases hv : qhas q v
  · rw [if_pos hv]
    constructor
    · exact Or.inl
    · rintro (h | rfl)
      · exact h
      · exact hv
  · rw [if_neg hv, qhas_iff_mem_keys, List.map_append, List.mem_append,
        qhas_iff_mem_keys]
    simp

theorem qget_qsetdefault {q : Quota} {v w : String} {d : Int} :
    qget (qsetdefault q v d) w =
      if qhas q w then qget q w else if w = v then d else 0 := by
  unfold qsetdefault
  by_cases hv : qhas q v
  · rw [if_pos hv]
    by_cases hw : qhas q w
    · rw [if_pos hw]
    · rw [if_neg hw, qget_of_not_qhas hw]
      have hwv : ¬ w = v := fun h => hw (h ▸ hv)
      rw [if_neg hwv]
  · rw [if_neg hv]
    by_cases hw : qhas q w
    · rw [if_pos hw]
      unfold qget qhas at *
      rw [List.find?_append]
      cases hf : q.find? (fun p => p.1 = w) with
      | none => rw [hf] at hw; simp at hw
      | some p => simp [hf]
    · rw [if_neg hw]
      unfold qget qhas at *
      rw [List.find?_append]
      cases hf : q.find? (fun p => p.1 = w) with
      | none =>
          simp only [hf, Option.none_or]
          by_cases hwv : w = v
          · rw [if_pos hwv]
            rw [List.find?_cons_of_pos _ (by simp [hwv])]
          · rw [if_neg hwv]
            rw [List.find?_cons_of_neg _ (by simp; exact fun h => hwv h.symm)]
            rfl
      | some p => rw [hf] at hw; simp at hw

theorem qhas_seedVols {vs : List String} :
    ∀ {q : Quota} {w : String}, qhas (seedVols q vs) w ↔ qhas q w ∨ w ∈ vs := by
  induction vs with
  | nil => intro q w; simp [seedVols]
  | cons v vs ih =>
      intro q w
      simp only [seedVols]
      rw [ih, qhas_qsetdefault]
      simp only [List.mem_cons, or_assoc]

theorem qget_seedVols {vs : List String} :
    ∀ {q : Quota} {w : String}, qget (seedVols q vs) w =
      if qhas q w then qget q w else if w ∈ vs then 2 else 0 := by
  induction vs with
  | nil =>
      intro q w
      simp only [seedVols, List.not_mem_nil, if_false]
      by_cases hw : qhas q w
      · rw [if_pos hw]
      · rw [if_neg hw, qget_of_not_qhas hw]
  | cons v vs ih =>
      intro q w
      simp only [seedVols]
      rw [ih]
      by_cases hw : qhas q w
      · rw [if_pos (qhas_qsetdefault.mpr (Or.inl hw)), if_pos hw,
            qget_qsetdefault, if_pos hw]
      · rw [if_neg hw]
        by_cases hwv : w = v
        · rw [if_pos (qhas_qsetdefault.mpr (Or.inr hwv)), qget_qsetdefault,
              if_neg hw, if_pos hwv, if_pos (by simp [hwv])]
        · have : ¬ qhas (qsetdefault q v 2) w := by
            rw [qhas_qsetdefault]; rintro (h | h) <;> [exact hw h; exact hwv h]
          rw [if_neg this]
          simp [hwv]

theorem qhas_seedAll {ss : List Student} :
    ∀ {q : Quota} {w : String}, qhas (seedAll q ss) w ↔ qhas q w ∨ w ∈ allVols ss := by
  induction ss with
  | nil => intro q w; simp [seedAll, allVols]
  | cons s ss ih =>
      intro q w
      simp only [seedAll, allVols]
      rw [ih, qhas_seedVols]
      simp only [List.mem_append, or_assoc]

theorem qget_seedAll {ss : List Student} :
    ∀ {q : Quota} {w : String}, qget (seedAll q ss) w =
      if qhas q w then qget q w else if w ∈ allVols ss then 2 else 0 := by
  induction ss with
  | nil =>
      intro q w; simp only [seedAll, allVols, List.not_mem_nil, if_false]
      by_cases hw : qhas q w
      · rw [if_pos hw]
      · rw [if_neg hw, qget_of_not_qhas hw]
  | cons s ss ih =>
      intro q w
      simp only [seedAll, allVols]
      rw [ih, qget_seedVols]
      by_cases hw : qhas q w
      · simp [qhas_seedVols, hw]
      · by_cases hv : w ∈ s.volunteers
        · simp [qhas_seedVols, hw, hv]
        · simp [qhas_seedVols, hw, hv]

theorem qhas_seedQuota {ss : List Student} {w : String} :
    qhas (seedQuota ss) w ↔ w ∈ allVols ss := by
  unfold seedQuota
  rw [qhas_seedAll]
  simp [qhas]

theorem qget_seedQuota {ss : List Student} {w : String} :
    qget (seedQuota ss) w = if w ∈ allVols ss then 2 else 0 := by
  unfold seedQuota
  rw [qget_seedAll]
  simp [qhas, qget]

theorem mem_allVols {ss : List Student} {s : Student} {v : String}
    (hs : s ∈ ss) (hv : v ∈ s.volunteers) : v ∈ allVols ss := by
  induction ss with
  | nil => cases hs
  | cons t ts ih =>
      simp only [allVols, List.mem_append]
      rcases List.mem_cons.mp hs with rfl | h
      · exact Or.inl hv
      · exact Or.inr (ih h)

/-! ### Scan lemmas -/

theorem scanVols_eq_of_none {s : Student} {q : Quota} {vs : List String}
    (h : (scanVols s q vs).1 = none) : scanVols s q vs = (none, q, []) := by
  induction vs with
  | nil => rfl
  | cons v vs ih =>
      by_cases hv : 0 < qget q v
      · simp [scanVols, hv] at h
      · simp only [scanVols, if_neg hv] at h ⊢
        exact ih h

theorem scanVols_none_iff {s : Student} {q : Quota} {vs : List String} :
    (scanVols s q vs).1 = none ↔ ∀ v ∈ vs, qget q v ≤ 0 := by
  induction vs with
  | nil => simp [scanVols]
  | cons v vs ih =>
      by_cases hv : 0 < qget q v
      · simp [scanVols, hv]
      · simp only [scanVols, if_neg hv, List.mem_cons]
        rw [ih]
        constructor
        · rintro h w (rfl | hw)
          · omega
          · exact h w hw
        · intro h w hw
          exact h w (Or.inr hw)

theorem scanVols_eq_of_some {s : Student} {q : Quota} {vs : List String} {v : String}
    (h : (scanVols s q vs).1 = some v) :
    0 < qget q v ∧ v ∈ vs ∧ scanVols s q vs = (some v, qdec q v, [mkLog s v]) := by
  induction vs with
  | nil => simp [scanVols] at h
  | cons w vs ih =>
      by_cases hw : 0 < qget q w
      · simp only [scanVols, if_pos hw] at h ⊢
        cases h
        exact ⟨hw, List.mem_cons_self _ _, rfl⟩
      · simp only [scanVols, if_neg hw] at h ⊢
        rcases ih h with ⟨h1, h2, h3⟩
        exact ⟨h1, List.mem_cons_of_mem _ h2, h3⟩

/-- The stateful loop is the pure computation followed by the replayed
writes. -/
theorem assignLoop_eq (ss : List Student) :
    ∀ (reg : List Student) (q : Quota),
      assignLoop reg q ss =
        (reg.map (applyWrites (assignPure ss q).1), (assignPure ss q).2) := by
  induction ss with
  | nil =>
      intro reg q
      simp only [assignLoop, assignPure]
      have h : ∀ t ∈ reg, applyWrites [] t = id t := fun t _ => rfl
      rw [List.map_congr_left h, List.map_id]
  | cons s ss ih =>
      intro reg q
      simp only [assignLoop, assignPure]
      rw [ih]
      refine congrArg (fun l => (l, _)) ?_
      show (setAdmitted reg s.id _).map _ = _
      unfold setAdmitted
      rw [List.map_map]
      rfl

/-! ### Write-replay lemmas -/

theorem applyWrites_eq (ws : List (Nat × Option String)) :
    ∀ (t : Student), applyWrites ws t =
      match wlast ws t.id with
      | some a => { t with admitted := a }
      | none => t := by
  induction ws with
  | nil => intro t; rfl
  | cons w ws ih =>
      intro t
      show applyWrites ws (applyWrite t w) = _
      unfold applyWrite
      by_cases h : t.id = w.1
      · rw [if_pos h, ih]
        simp only [wlast, h]
        cases wlast ws w.1 with
        | none => simp
        | some a => simp
      · rw [if_neg h, ih]
        simp only [wlast]
        cases wlast ws t.id with
        | none => simp [h]
        | some a => simp

theorem applyWrites_idem (ws : List (Nat × Option String)) (t : Student) :
    applyWrites ws (applyWrites ws t) = applyWrites ws t := by
  cases h : wlast ws t.id with
  | none =>
      have h1 : applyWrites ws t = t := by rw [applyWrites_eq, h]
      rw [h1]
      exact h1
  | some a =>
      have h1 : applyWrites ws t = { t with admitted := a } := by
        rw [applyWrites_eq, h]
      have h3 : applyWrites ws { t with admitted := a } = { t with admitted := a } := by
        rw [applyWrites_eq]
        show (match wlast ws t.id with
              | some a => { t with admitted := a }
              | none => { t with admitted := a }) = { t with admitted := a }
        rw [h]
      rw [h1, h3]

theorem wlast_eq_none_of_not_mem {ws : List (Nat × Option String)} {i : Nat}
    (h : i ∉ ws.map Prod.fst) : wlast ws i = none := by
  induction ws with
  | nil => rfl
  | cons w ws ih =>
      simp only [List.map_cons, List.mem_cons] at h
      push_neg at h
      simp only [wlast, ih h.2, if_neg h.1]

theorem wlast_mem {ws : List (Nat × Option String)} {w : Nat × Option String}
    (hnd : (ws.map Prod.fst).Nodup) (hw : w ∈ ws) : wlast ws w.1 = some w.2 := by
  induction ws with
  | nil => cases hw
  | cons u ws ih =>
      simp only [List.map_cons, List.nodup_cons] at hnd
      rcases List.mem_cons.mp hw with rfl | h
      · simp [wlast, wlast_eq_none_of_not_mem hnd.1]
      · simp only [wlast, ih hnd.2 h]

theorem wlast_isSome_of_mem {ws : List (Nat × Option String)} {i : Nat}
    (h : i ∈ ws.map Prod.fst) : (wlast ws i).isSome := by
  induction ws with
  | nil => cases h
  | cons w ws ih =>
      simp only [List.map_cons, List.mem_cons] at h
      simp only [wlast]
      cases hl : wlast ws i with
      | some a => rfl
      | none =>
          rcases h with rfl | h
          · simp
          · rw [hl] at ih; exact absurd (ih h) (by simp)

theorem mem_of_wlast_eq_some {ws : List (Nat × Option String)} {i : Nat}
    {a : Option String} (h : wlast ws i = some a) : (i, a) ∈ ws := by
  induction ws with
  | nil => cases h
  | cons w ws ih =>
      simp only [wlast] at h
      cases hl : wlast ws i with
      | some b =>
          rw [hl] at h
          cases h
          exact List.mem_cons_of_mem _ (ih hl)
      | none =>
          rw [hl] at h
          by_cases hi : i = w.1
          · rw [if_pos hi] at h
            cases h
            rw [hi]
            exact List.mem_cons_self _ _
          · rw [if_neg hi] at h
            cases h

/-! ### Canonical snapshot order -/

theorem keyLT_asymm {a b : Student} (h : keyLT a b) : ¬ keyLT b a := by
  unfold keyLT at *
  omega

theorem keyLT_trans {a b c : Student} (h1 : keyLT a b) (h2 : keyLT b c) :
    keyLT a c := by
  unfold keyLT at *
  omega

theorem insertByPriority_perm (s : Student) (l : List Student) :
    (insertByPriority s l).Perm (s :: l) := by
  induction l with
  | nil => exact List.Perm.refl _
  | cons t ts ih =>
      by_cases h : keyLT s t
      · rw [insertByPriority, if_pos h]
      · rw [insertByPriority, if_neg h]
        exact (ih.cons t).trans (List.Perm.swap s t ts)

theorem mem_insertByPriority {s x : Student} {l : List Student} :
    x ∈ insertByPriority s l ↔ x = s ∨ x ∈ l := by
  rw [(insertByPriority_perm s l).mem_iff, List.mem_cons]

theorem snapshotSort_perm (reg : List Student) : (snapshotSort reg).Perm reg := by
  have h : ∀ (l acc : List Student),
      (l.foldl (fun acc s => insertByPriority s acc) acc).Perm (acc ++ l) := by
    intro l
    induction l with
    | nil => intro acc; simp
    | cons s l ih =>
        intro acc
        refine (ih (insertByPriority s acc)).trans ?_
        refine (((insertByPriority_perm s acc).append_right l).trans ?_)
        exact List.perm_middle.symm
  simpa using h reg []

theorem pairwise_insertByPriority {s : Student} {l : List Student}
    (h : List.Pairwise (fun a b => ¬ keyLT b a) l) :
    List.Pairwise (fun a b => ¬ keyLT b a) (insertByPriority s l) := by
  induction l with
  | nil => simp [insertByPriority]
  | cons t ts ih =>
      rcases List.pairwise_cons.mp h with ⟨ht, hts⟩
      by_cases hst : keyLT s t
      · rw [insertByPriority, if_pos hst]
        refine List.pairwise_cons.mpr ⟨?_, h⟩
        intro x hx
        rcases List.mem_cons.mp hx with rfl | hx
        · exact keyLT_asymm hst
        · intro hxs
          exact ht x hx (keyLT_trans hxs hst)
      · rw [insertByPriority, if_neg hst]
        refine List.pairwise_cons.mpr ⟨?_, ih hts⟩
        intro x hx
        rcases mem_insertByPriority.mp hx with rfl | hx
        · exact hst
        · exact ht x hx

theorem snapshotSort_sorted (reg : List Student) :
    List.Pairwise (fun a b => ¬ keyLT b a) (snapshotSort reg) := by
  have h : ∀ (l acc : List Student),
      List.Pairwise (fun a b => ¬ keyLT b a) acc →
      List.Pairwise (fun a b => ¬ keyLT b a)
        (l.foldl (fun acc s => insertByPriority s acc) acc) := by
    intro l
    induction l with
    | nil => intro acc hacc; exact hacc
    | cons s l ih => intro acc hacc; exact ih _ (pairwise_insertByPriority hacc)
  exact h reg [] List.Pairwise.nil

theorem keyLT_map {f : Student → Student} (hf : PreservesPayload f)
    {a b : Student} : keyLT (f a) (f b) ↔ keyLT a b := by
  obtain ⟨_, _, hsa, _, hla⟩ := hf a
  obtain ⟨_, _, hsb, _, hlb⟩ := hf b
  unfold keyLT
  rw [hsa, hsb, hla, hlb]

theorem insertByPriority_map {f : Student → Student} (hf : PreservesPayload f)
    (s : Student) (l : List Student) :
    insertByPriority (f s) (l.map f) = (insertByPriority s l).map f := by
  induction l with
  | nil => rfl
  | cons t ts ih =>
      by_cases h : keyLT s t
      · rw [List.map_cons, insertByPriority, if_pos ((keyLT_map hf).mpr h),
            insertByPriority, if_pos h, List.map_cons, List.map_cons]
      · rw [List.map_cons, insertByPriority,
            if_neg (fun hc => h ((keyLT_map hf).mp hc)),
            insertByPriority, if_neg h, List.map_cons, ih]

theorem snapshotSort_map {f : Student → Student} (hf : PreservesPayload f)
    (reg : List Student) :
    snapshotSort (reg.map f) = (snapshotSort reg).map f := by
  have h : ∀ (l acc : List Student),
      (l.map f).foldl (fun acc s => insertByPriority s acc) (acc.map f) =
        (l.foldl (fun acc s => insertByPriority s acc) acc).map f := by
    intro l
    induction l with
    | nil => intro acc; rfl
    | cons s l ih =>
        intro acc
        rw [List.map_cons, List.foldl_cons, List.foldl_cons,
            insertByPriority_map hf, ih]
  simpa using h reg []

/-! ### The pass depends only on the payload fields -/

theorem scanVols_payload {f : Student → Student} (hf : PreservesPayload f)
    (s : Student) (q : Quota) (vs : List String) :
    scanVols (f s) q vs = scanVols s q vs := by
  obtain ⟨_, hn, hs, _, _⟩ := hf s
  induction vs with
  | nil => rfl
  | cons v vs ih =>
      by_cases h : 0 < qget q v
      · rw [scanVols, if_pos h, scanVols, if_pos h]
        unfold mkLog
        rw [hn, hs]
      · rw [scanVols, if_neg h, scanVols, if_neg h, ih]

theorem seedAll_map {f : Student → Student} (hf : PreservesPayload f) :
    ∀ (ss : List Student) (q : Quota), seedAll q (ss.map f) = seedAll q ss := by
  intro ss
  induction ss with
  | nil => intro q; rfl
  | cons s ss ih =>
      intro q
      rw [List.map_cons, seedAll, (hf s).2.2.2.1, seedAll, ih]

theorem seedQuota_map {f : Student → Student} (hf : PreservesPayload f)
    (ss : List Student) : seedQuota (ss.map f) = seedQuota ss := by
  unfold seedQuota
  exact seedAll_map hf ss []

theorem assignPure_map {f : Student → Student} (hf : PreservesPayload f) :
    ∀ (ss : List Student) (q : Quota), assignPure (ss.map f) q = assignPure ss q := by
  intro ss
  induction ss with
  | nil => intro q; rfl
  | cons s ss ih =>
      intro q
      simp only [List.map_cons, assignPure]
      rw [(hf s).2.2.2.1, scanVols_payload hf, (hf s).1, ih]

theorem preservesPayload_applyWrites (ws : List (Nat × Option String)) :
    PreservesPayload (applyWrites ws) := by
  intro t
  rw [applyWrites_eq]
  cases wlast ws t.id with
  | none => exact ⟨rfl, rfl, rfl, rfl, rfl⟩
  | some a => exact ⟨rfl, rfl, rfl, rfl, rfl⟩

/-- The allocation pass only rewrites `admitted` fields: the table after
`api_assign` is the table before it with the computed write list replayed. -/
theorem api_assign_unfold (reg : List Student) :
    api_assign reg =
      (reg.map (applyWrites
          (assignPure (snapshotSort reg) (seedQuota (snapshotSort reg))).1),
        (assignPure (snapshotSort reg) (seedQuota (snapshotSort reg))).2) := by
  unfold api_assign
  exact assignLoop_eq _ _ _

/-- Idempotence of the pass on the stored table. -/
theorem api_assign_idem (reg : List Student) :
    api_assign ((api_assign reg).1) = api_assign reg := by
  have hw := preservesPayload_applyWrites
    (assignPure (snapshotSort reg) (seedQuota (snapshotSort reg))).1
  rw [api_assign_unfold reg, api_assign_unfold]
  rw [snapshotSort_map hw, seedQuota_map hw, assignPure_map hw]
  refine congrArg (fun l => (l, _)) ?_
  rw [List.map_map]
  exact List.map_congr_left (fun t _ => applyWrites_idem _ t)

/-! ### Refinement: the code's quota-decrement scan against the spec's
consumed-count scan -/

theorem scan_spec_equiv {q : Quota} {c : String → Nat} (hrel : SpecRel q c)
    {vs : List String} (hvs : ∀ v ∈ vs, qhas q v) (s : Student) :
    (scanVols s q vs).1 = specScan c vs := by
  induction vs with
  | nil => rfl
  | cons v vs ih =>
      obtain ⟨hc2, hq⟩ := hrel v (hvs v (List.mem_cons_self _ _))
      by_cases h : 0 < qget q v
      · have hlt : c v < specCapacity := by
          unfold specCapacity
          rw [hq] at h
          omega
        rw [scanVols, if_pos h, specScan, if_pos hlt]
      · have hge : ¬ c v < specCapacity := by
          unfold specCapacity
          rw [hq] at h
          omega
        rw [scanVols, if_neg h, specScan, if_neg hge]
        exact ih (fun w hw => hvs w (List.mem_cons_of_mem _ hw))

theorem specRel_step {q : Quota} {c : String → Nat} {v : String}
    (hrel : SpecRel q c) (hv : qhas q v) (hpos : 0 < qget q v) :
    SpecRel (qdec q v) (specBump c v) := by
  intro w hw
  rw [qhas_qdec] at hw
  obtain ⟨hc2, hq⟩ := hrel w hw
  by_cases hwv : w = v
  · subst hwv
    obtain ⟨_, hqv⟩ := hrel w hv
    rw [qget_qdec_self hv]
    unfold specBump
    rw [if_pos rfl]
    constructor
    · rw [hqv] at hpos; omega
    · rw [hqv]; push_cast; ring
  · rw [qget_qdec_ne hwv]
    unfold specBump
    rw [if_neg hwv]
    exact ⟨hc2, hq⟩

/-- The pure pass computes exactly the spec's serial-dictatorship pass, as
long as every scanned preference is a known seat and the quota/consumed
states are related. -/
theorem assignPure_spec {ss : List Student} :
    ∀ {q : Quota} {c : String → Nat},
      SpecRel q c → (∀ s ∈ ss, ∀ v ∈ s.volunteers, qhas q v) →
      (assignPure ss q).1 = (specAlloc c ss).1 ∧
      (assignPure ss q).2.map (fun e => (e.student, e.score, e.volunteer)) =
        (specAlloc c ss).2 := by
  induction ss with
  | nil => exact fun _ _ => ⟨rfl, rfl⟩
  | cons s ss ih =>
      intro q c hrel hsub
      have hvs : ∀ v ∈ s.volunteers, qhas q v :=
        hsub s (List.mem_cons_self _ _)
      have hsub' : ∀ t ∈ ss, ∀ v ∈ t.volunteers, qhas q v :=
        fun t ht => hsub t (List.mem_cons_of_mem _ ht)
      have hscan := scan_spec_equiv hrel hvs s
      cases hres : (scanVols s q s.volunteers).1 with
      | none =>
          have heq := scanVols_eq_of_none hres
          have hspec : specScan c s.volunteers = none := hscan ▸ hres
          simp only [assignPure, specAlloc, heq, hspec]
          obtain ⟨h1, h2⟩ := ih hrel hsub'
          exact ⟨by rw [h1], by simpa using h2⟩
      | some v =>
          obtain ⟨hpos, hmem, heq⟩ := scanVols_eq_of_some hres
          have hspec : specScan c s.volunteers = some v := hscan ▸ hres
          have hrel' : SpecRel (qdec q v) (specBump c v) :=
            specRel_step hrel (hvs v hmem) hpos
          have hsub'' : ∀ t ∈ ss, ∀ w ∈ t.volunteers, qhas (qdec q v) w :=
            fun t ht w hw => qhas_qdec.mpr (hsub' t ht w hw)
          simp only [assignPure, specAlloc, heq, hspec]
          obtain ⟨h1, h2⟩ := ih hrel' hsub''
          refine ⟨by rw [h1], ?_⟩
          simp only [List.map_cons, List.map_append]
          rw [h2]
          rfl

theorem assignPure_log_result {ss : List Student} :
    ∀ {q : Quota}, ∀ e ∈ (assignPure ss q).2, e.result = "分配成功" := by
  induction ss with
  | nil => intro q e he; cases he
  | cons s ss ih =>
      intro q e he
      simp only [assignPure] at he
      rcases List.mem_append.mp he with h | h
      · cases hres : (scanVols s q s.volunteers).1 with
        | none => rw [scanVols_eq_of_none hres] at h; cases h
        | some v =>
            obtain ⟨_, _, heq⟩ := scanVols_eq_of_some hres
            rw [heq] at h
            rcases List.mem_singleton.mp h with rfl
            rfl
      · exact ih e h

theorem specRel_seed (ss : List Student) :
    SpecRel (seedQuota ss) (fun _ => 0) := by
  intro v hv
  rw [qget_seedQuota, if_pos (qhas_seedQuota.mp hv)]
  exact ⟨by simp, by simp⟩

theorem seed_covers (ss : List Student) :
    ∀ s ∈ ss, ∀ v ∈ s.volunteers, qhas (seedQuota ss) v :=
  fun s hs v hv => qhas_seedQuota.mpr (mem_allVols hs hv)

/-! ### Counting assignments per seat -/

theorem qhas_of_qget_pos {q : Quota} {v : String} (h : 0 < qget q v) :
    qhas q v := by
  by_contra hc
  rw [qget_of_not_qhas hc] at h
  exact absurd h (by omega)

theorem assignPure_ids (ss : List Student) :
    ∀ q : Quota, (assignPure ss q).1.map Prod.fst = ss.map Student.id := by
  induction ss with
  | nil => intro q; rfl
  | cons s ss ih =>
      intro q
      simp only [assignPure, List.map_cons]
      rw [ih]

theorem countP_assignPure_le (v : String) (ss : List Student) :
    ∀ q : Quota,
      (assignPure ss q).1.countP (fun p => p.2 = some v) ≤ (qget q v).toNat := by
  induction ss with
  | nil => intro q; simp [assignPure]
  | cons s ss ih =>
      intro q
      simp only [assignPure]
      cases hres : (scanVols s q s.volunteers).1 with
      | none =>
          rw [scanVols_eq_of_none hres]
          simp only [List.countP_cons]
          simpa using ih q
      | some w =>
          obtain ⟨hpos, _, heq⟩ := scanVols_eq_of_some hres
          rw [heq]
          by_cases hwv : w = v
          · subst hwv
            have h1 := ih (qdec q w)
            rw [qget_qdec_self (qhas_of_qget_pos hpos)] at h1
            simp only [List.countP_cons]
            simp only [decide_eq_true_eq]
            simp
            omega
          · have h1 := ih (qdec q w)
            rw [qget_qdec_ne (fun h => hwv h.symm)] at h1
            simp only [List.countP_cons]
            simp [hwv]
            exact h1

theorem countP_assignPure_seed_le_two (v : String) (ss : List Student) :
    (assignPure ss (seedQuota ss)).1.countP (fun p => p.2 = some v) ≤ 2 := by
  have h := countP_assignPure_le v ss (seedQuota ss)
  rw [qget_seedQuota] at h
  by_cases hv : v ∈ allVols ss
  · rw [if_pos hv] at h; exact h.trans (by norm_num)
  · rw [if_neg hv] at h; exact h.trans (by norm_num)

/-- With distinct row ids (the PRIMARY KEY invariant), the per-seat count of
admitted rows in the written-back table equals the count in the computed
write list. -/
theorem countP_admitted_after (reg : List Student) (seat : String)
    (hnd : (reg.map Student.id).Nodup) :
    ((api_assign reg).1.countP (fun t => t.admitted = some seat)) =
      ((assignPure (snapshotSort reg) (seedQuota (snapshotSort reg))).1.countP
        (fun p => p.2 = some seat)) := by
  rw [api_assign_unfold]
  set ws := (assignPure (snapshotSort reg) (seedQuota (snapshotSort reg))).1 with hws
  have hkeys : ws.map Prod.fst = (snapshotSort reg).map Student.id :=
    assignPure_ids _ _
  have hperm : ((snapshotSort reg).map Student.id).Perm (reg.map Student.id) :=
    (snapshotSort_perm reg).map _
  have hpermk : (ws.map Prod.fst).Perm (reg.map Student.id) := hkeys ▸ hperm
  have hndk : (ws.map Prod.fst).Nodup := hpermk.nodup_iff.mpr hnd
  rw [List.countP_map]
  have hpt : ∀ t ∈ reg,
      (decide ((applyWrites ws t).admitted = some seat)) =
        (decide (wlast ws t.id = some (some seat))) := by
    intro t ht
    have hmem : t.id ∈ ws.map Prod.fst :=
      hpermk.mem_iff.mpr (List.mem_map.mpr ⟨t, ht, rfl⟩)
    have hsome := wlast_isSome_of_mem hmem
    cases hl : wlast ws t.id with
    | none => rw [hl] at hsome; simp at hsome
    | some a =>
        have : applyWrites ws t = { t with admitted := a } := by
          rw [applyWrites_eq, hl]
        rw [this]
        simp
  rw [List.countP_congr (fun t ht => by rw [Function.comp_apply, hpt t ht])]
  have h2 : reg.countP (fun t => decide (wlast ws t.id = some (some seat))) =
      (reg.map Student.id).countP (fun i => decide (wlast ws i = some (some seat))) := by
    rw [List.countP_map]; rfl
  rw [h2, ← hpermk.countP_eq, List.countP_map]
  refine List.countP_congr ?_
  intro w hw
  rw [Function.comp_apply]
  have := wlast_mem hndk hw
  rw [this]
  simp

/-! ### Decomposing the pass at a snapshot position -/

theorem assignPure_append (xs ys : List Student) :
    ∀ q : Quota, assignPure (xs ++ ys) q =
      ((assignPure xs q).1 ++ (assignPure ys (quotaAfter q xs)).1,
        (assignPure xs q).2 ++ (assignPure ys (quotaAfter q xs)).2) := by
  induction xs with
  | nil => intro q; simp [assignPure, quotaAfter]
  | cons s xs ih =>
      intro q
      rw [List.cons_append]
      simp only [assignPure, quotaAfter]
      rw [ih]
      simp [List.append_assoc]

theorem qhas_quotaAfter (ss : List Student) :
    ∀ (q : Quota) (w : String), qhas (quotaAfter q ss) w ↔ qhas q w := by
  induction ss with
  | nil => intro q w; exact Iff.rfl
  | cons s ss ih =>
      intro q w
      simp only [quotaAfter]
      cases hres : (scanVols s q s.volunteers).1 with
      | none => rw [scanVols_eq_of_none hres, ih]
      | some v =>
          obtain ⟨_, _, heq⟩ := scanVols_eq_of_some hres
          rw [heq]
          show qhas (quotaAfter (qdec q v) ss) w ↔ qhas q w
          rw [ih, qhas_qdec]

theorem assignPure_mem {ss : List Student} :
    ∀ {q : Quota} {p : Nat × Option String}, p ∈ (assignPure ss q).1 →
      ∃ s ∈ ss, p.1 = s.id ∧
        (p.2 = none ∨ ∃ v, p.2 = some v ∧ v ∈ s.volunteers) := by
  induction ss with
  | nil => intro q p hp; cases hp
  | cons s ss ih =>
      intro q p hp
      simp only [assignPure] at hp
      rcases List.mem_cons.mp hp with rfl | hp
      · refine ⟨s, List.mem_cons_self _ _, rfl, ?_⟩
        cases hres : (scanVols s q s.volunteers).1 with
        | none => exact Or.inl rfl
        | some v =>
            obtain ⟨_, hv, _⟩ := scanVols_eq_of_some hres
            exact Or.inr ⟨v, rfl, hv⟩
      · obtain ⟨t, ht, h1, h2⟩ := ih hp
        exact ⟨t, List.mem_cons_of_mem _ ht, h1, h2⟩

/-! ### The database invariant is preserved by every operation -/

theorem inv_submit {reg : List Student} {n : Nat} {req : SubmitReq} {now : Nat}
    {reg' : List Student} {n' : Nat}
    (h : Inv (reg, n)) (hok : api_submit reg n req now = .ok (reg', n')) :
    Inv (reg', n') := by
  obtain ⟨hnames, hids, hbound, hadm⟩ := h
  unfold api_submit at hok
  by_cases h1 : stripName req.name = ""
  · rw [if_pos h1] at hok; cases hok
  rw [if_neg h1] at hok
  by_cases h2 : req.score < 0
  · rw [if_pos h2] at hok; cases hok
  rw [if_neg h2] at hok
  by_cases h3 : req.volunteers = []
  · rw [if_pos h3] at hok; cases hok
  rw [if_neg h3] at hok
  cases hf : reg.find? (fun t => t.name = stripName req.name) with
  | some r =>
      rw [hf] at hok
      simp only [Except.ok.injEq, Prod.mk.injEq] at hok
      obtain ⟨hr, hn⟩ := hok
      subst hr; subst hn
      refine ⟨?_, ?_, ?_, ?_⟩
      · rw [List.map_map]
        have : ∀ t ∈ reg, (Student.name ∘ fun t =>
            if t.id = r.id then
              { t with score := req.score, volunteers := req.volunteers,
                       admitted := none, lastUpdated := now }
            else t) t = Student.name t := by
          intro t _
          by_cases ht : t.id = r.id <;> simp [ht]
        rw [List.map_congr_left this]
        exact hnames
      · rw [List.map_map]
        have : ∀ t ∈ reg, (Student.id ∘ fun t =>
            if t.id = r.id then
              { t with score := req.score, volunteers := req.volunteers,
                       admitted := none, lastUpdated := now }
            else t) t = Student.id t := by
          intro t _
          by_cases ht : t.id = r.id <;> simp [ht]
        rw [List.map_congr_left this]
        exact hids
      · intro t ht
        rcases List.mem_map.mp ht with ⟨u, hu, rfl⟩
        by_cases hui : u.id = r.id
        · rw [if_pos hui]; exact hbound u hu
        · rw [if_neg hui]; exact hbound u hu
      · intro t ht v hv
        rcases List.mem_map.mp ht with ⟨u, hu, rfl⟩
        by_cases hui : u.id = r.id
        · rw [if_pos hui] at hv ⊢
          cases hv
        · rw [if_neg hui] at hv ⊢
          exact hadm u hu v hv
  | none =>
      rw [hf] at hok
      simp only [Except.ok.injEq, Prod.mk.injEq] at hok
      obtain ⟨hr, hn⟩ := hok
      subst hr; subst hn
      have hnew : ∀ t ∈ reg, t.name ≠ stripName req.name := by
        intro t ht
        have := List.find?_eq_none.mp hf t ht
        simpa using this
      refine ⟨?_, ?_, ?_, ?_⟩
      · rw [List.map_append]
        rw [List.nodup_append]
        refine ⟨hnames, List.nodup_singleton _, ?_⟩
        intro x hx hy
        rcases List.mem_map.mp hx with ⟨t, ht, rfl⟩
        rcases List.mem_singleton.mp hy with h
        exact hnew t ht h
      · rw [List.map_append, List.nodup_append]
        refine ⟨hids, List.nodup_singleton _, ?_⟩
        intro x hx hy
        rcases List.mem_map.mp hx with ⟨t, ht, rfl⟩
        rcases List.mem_singleton.mp hy with h
        exact absurd (h ▸ hbound t ht) (by simp)
      · intro t ht
        rcases List.mem_append.mp ht with ht | ht
        · exact Nat.lt_succ_of_lt (hbound t ht)
        · rcases List.mem_singleton.mp ht with rfl
          exact Nat.lt_succ_self n
      · intro t ht v hv
        rcases List.mem_append.mp ht with ht | ht
        · exact hadm t ht v hv
        · rcases List.mem_singleton.mp ht with rfl
          cases hv

theorem inv_assign {reg : List Student} {n : Nat} (h : Inv (reg, n)) :
    Inv ((api_assign reg).1, n) := by
  obtain ⟨hnames, hids, hbound, hadm⟩ := h
  rw [api_assign_unfold]
  set ws := (assignPure (snapshotSort reg) (seedQuota (snapshotSort reg))).1 with hws
  have hw := preservesPayload_applyWrites ws
  refine ⟨?_, ?_, ?_, ?_⟩
  · show ((reg.map (applyWrites ws)).map Student.name).Nodup
    rw [List.map_map]
    have heq : reg.map (Student.name ∘ applyWrites ws) = reg.map Student.name :=
      List.map_congr_left (fun t _ => (hw t).2.1)
    rw [heq]
    exact hnames
  · show ((reg.map (applyWrites ws)).map Student.id).Nodup
    rw [List.map_map]
    have heq : reg.map (Student.id ∘ applyWrites ws) = reg.map Student.id :=
      List.map_congr_left (fun t _ => (hw t).1)
    rw [heq]
    exact hids
  · intro t ht
    rcases List.mem_map.mp ht with ⟨u, hu, rfl⟩
    show (applyWrites ws u).id < n
    rw [(hw u).1]
    exact hbound u hu
  · intro t ht v hv
    rcases List.mem_map.mp ht with ⟨u, hu, rfl⟩
    cases hl : wlast ws u.id with
    | none =>
        have heq0 : applyWrites ws u = u := by rw [applyWrites_eq, hl]
        rw [heq0] at hv ⊢
        exact hadm u hu v hv
    | some a =>
        have heqa : applyWrites ws u = { u with admitted := a } := by
          rw [applyWrites_eq, hl]
        rw [heqa] at hv ⊢
        show v ∈ u.volunteers
        have ha : a = some v := hv
        subst ha
        have hmem := mem_of_wlast_eq_some hl
        rw [hws] at hmem
        obtain ⟨s, hs, hsid, hcase⟩ := assignPure_mem hmem
        have hsreg : s ∈ reg := (snapshotSort_perm reg).mem_iff.mp hs
        have hsu : s = u := List.inj_on_of_nodup_map hids hsreg hu hsid.symm
        rcases hcase with hnone | ⟨w, hw2, hwv⟩
        · exact absurd hnone (by simp)
        · have hvw : v = w := Option.some.inj hw2
          subst hvw
          rw [hsu] at hwv
          exact hwv

theorem inv_step {st : List Student × Nat} (h : Inv st) (op : Op) :
    Inv (step st op) := by
  rcases st with ⟨reg, n⟩
  cases op with
  | submit req now =>
      simp only [step]
      cases hok : api_submit reg n req now with
      | ok st' =>
          rcases st' with ⟨reg', n'⟩
          exact inv_submit h hok
      | error m => exact h
  | assign => exact inv_assign h
  | reset => refine ⟨?_, ?_, ?_, ?_⟩ <;> simp [step, api_reset]

theorem inv_runOps (ops : List Op) : Inv (runOps ops) := by
  have h : ∀ st, Inv st → Inv (ops.foldl step st) := by
    induction ops with
    | nil => intro st hst; exact hst
    | cons op ops ih => intro st hst; exact ih _ (inv_step hst op)
  exact h ([], 1) ⟨List.Pairwise.nil, List.Pairwise.nil, by simp, by simp⟩

theorem quotaAfter_append (xs ys : List Student) :
    ∀ q : Quota, quotaAfter q (xs ++ ys) = quotaAfter (quotaAfter q xs) ys := by
  induction xs with
  | nil => intro q; rfl
  | cons s xs ih =>
      intro q
      rw [List.cons_append]
      simp only [quotaAfter]
      exact ih _

theorem find?_name_map (l : List Student) (f : Student → Student)
    (hf : ∀ t, (f t).name = t.name) (nm : String) :
    (l.map f).find? (fun t => t.name = nm) =
      (l.find? (fun t => t.name = nm)).map f := by
  induction l with
  | nil => rfl
  | cons t l ih =>
      by_cases h : t.name = nm
      · rw [List.map_cons,
            List.find?_cons_of_pos _ (by simp [hf, h]),
            List.find?_cons_of_pos _ (by simp [h])]
        rfl
      · rw [List.map_cons,
            List.find?_cons_of_neg _ (by simp [hf, h]),
            List.find?_cons_of_neg _ (by simp [h])]
        exact ih

/-! ## The claims -/

/-- C1: `api_assign` takes the registry snapshot in canonical order (score
descending, `last_updated` ascending — the snapshot is a permutation of the
registry sorted by the canonical priority relation) and behaves exactly as
the spec's serial-dictatorship pass: each record in that order receives the
first preference whose consumed count is below the capacity constant, that
seat's consumed count is incremented and one `(name, score, seat)` assignment
entry is logged; a record with no preference below capacity is written back
with a NULL admitted seat and produces no log entry; the log lists the
assignment events in priority order, every entry marked with the success
result string. -/
theorem c1_assign_follows_spec (reg : List Student) :
    (snapshotSort reg).Perm reg ∧
    List.Pairwise (fun a b => ¬ keyLT b a) (snapshotSort reg) ∧
    (api_assign reg).1 =
      reg.map (applyWrites (specAllocate (snapshotSort reg)).1) ∧
    (api_assign reg).2.map (fun e => (e.student, e.score, e.volunteer)) =
      (specAllocate (snapshotSort reg)).2 ∧
    (api_assign reg).2.map LogEntry.result =
      List.replicate (api_assign reg).2.length "分配成功" := by
  obtain ⟨h1, h2⟩ := assignPure_spec
    (specRel_seed (snapshotSort reg)) (seed_covers (snapshotSort reg))
  unfold specAllocate
  refine ⟨snapshotSort_perm reg, snapshotSort_sorted reg, ?_, ?_, ?_⟩
  · rw [api_assign_unfold, h1]
  · rw [api_assign_unfold]
    exact h2
  · refine List.eq_replicate_iff.mpr ⟨by rw [List.length_map], ?_⟩
    intro b hb
    rcases List.mem_map.mp hb with ⟨e, he, rfl⟩
    rw [api_assign_unfold] at he
    exact assignPure_log_result e he

/-- C2: after an allocation pass, at most `C = 2` registry rows carry any
given admitted seat (the rows carry distinct primary-key ids). -/
theorem c2_capacity_bound (reg : List Student) (seat : String)
    (hnd : (reg.map Student.id).Nodup) :
    (api_assign reg).1.countP (fun t => t.admitted = some seat) ≤ 2 := by
  rw [countP_admitted_after reg seat hnd]
  exact countP_assignPure_seed_le_two seat (snapshotSort reg)

/-- C2 witness: the spec's §8 scenario — three students all ranking `Row1`
first; after the pass at most two rows are admitted to `Row1`. -/
theorem c2_capacity_bound_witness :
    (([⟨1, "Alice", 90, ["Row1"], none, 10⟩,
       ⟨2, "Bob", 85, ["Row1"], none, 11⟩,
       ⟨3, "Carol", 80, ["Row1"], none, 12⟩] : List Student).map Student.id).Nodup ∧
    (api_assign [⟨1, "Alice", 90, ["Row1"], none, 10⟩,
      ⟨2, "Bob", 85, ["Row1"], none, 11⟩,
      ⟨3, "Carol", 80, ["Row1"], none, 12⟩]).1.countP
        (fun t => t.admitted = some "Row1") ≤ 2 :=
  ⟨by decide, c2_capacity_bound _ "Row1" (by decide)⟩

/-- C3: running `api_assign` twice with no intervening submit or reset
yields identical output (registry, process log and the results projection):
the pass writes only `admitted` fields, which the snapshot order and the
algorithm never read. -/
theorem c3_allocate_idempotent (reg : List Student) :
    api_assign ((api_assign reg).1) = api_assign reg ∧
    resultsOf ((api_assign ((api_assign reg).1)).1) =
      resultsOf ((api_assign reg).1) :=
  ⟨api_assign_idem reg,
    congrArg (fun p => resultsOf p.1) (api_assign_idem reg)⟩

/-- C4: a valid submit upserts by trimmed name — afterwards the registry's
record under that name has the submitted score and preferences, the new
`last_updated`, and a NULL admitted seat regardless of any prior admission;
when the name already existed the row count is unchanged and every other row
is untouched, otherwise exactly the one new record (with the next
AUTOINCREMENT id and NULL admitted seat) is appended. -/
theorem c4_submit_upsert (reg : List Student) (n : Nat) (req : SubmitReq)
    (now : Nat) (hname : ¬ stripName req.name = "") (hscore : ¬ req.score < 0)
    (hvols : ¬ req.volunteers = []) :
    ∃ reg' n', api_submit reg n req now = .ok (reg', n') ∧
      (∃ u, reg'.find? (fun t => t.name = stripName req.name) = some u ∧
        u.admitted = none ∧ u.score = req.score ∧
        u.volunteers = req.volunteers ∧ u.lastUpdated = now) ∧
      (match reg.find? (fun t => t.name = stripName req.name) with
       | some r =>
           reg'.length = reg.length ∧ n' = n ∧
           ∀ t ∈ reg, t.id ≠ r.id → t ∈ reg'
       | none =>
           reg' = reg ++ [⟨n, stripName req.name, req.score, req.volunteers, none, now⟩] ∧
           n' = n + 1) := by
  unfold api_submit
  rw [if_neg hname, if_neg hscore, if_neg hvols]
  cases hf : reg.find? (fun t => t.name = stripName req.name) with
  | some r =>
      refine ⟨_, n, rfl, ?_, ?_⟩
      · have hfn : ∀ t : Student,
            ((fun t =>
              if t.id = r.id then
                { t with score := req.score, volunteers := req.volunteers,
                         admitted := none, lastUpdated := now }
              else t) t).name = t.name := by
          intro t
          by_cases ht : t.id = r.id <;> simp [ht]
        rw [find?_name_map _ _ hfn, hf]
        refine ⟨_, rfl, ?_, ?_, ?_, ?_⟩ <;> simp
      · refine ⟨List.length_map _ _, rfl, ?_⟩
        intro t ht htid
        refine List.mem_map.mpr ⟨t, ht, ?_⟩
        rw [if_neg htid]
  | none =>
      refine ⟨_, n + 1, rfl, ?_, ⟨rfl, rfl⟩⟩
      rw [List.find?_append, hf, Option.none_or,
          List.find?_cons_of_pos _ (by simp)]
      exact ⟨_, rfl, rfl, rfl, rfl, rfl⟩

/-- C4 witness: submitting `Alice` into an empty registry creates the single
record with a NULL admitted seat. -/
theorem c4_submit_upsert_witness :
    (¬ stripName "Alice" = "" ∧ ¬ (90 : Int) < 0 ∧
      ¬ (["Row1"] : List String) = []) ∧
    (∃ reg' n', api_submit [] 1 ⟨"Alice", 90, ["Row1"]⟩ 5 = .ok (reg', n') ∧
      (∃ u, reg'.find? (fun t => t.name = stripName "Alice") = some u ∧
        u.admitted = none ∧ u.score = (90 : Int) ∧
        u.volunteers = ["Row1"] ∧ u.lastUpdated = 5) ∧
      (match ([] : List Student).find? (fun t => t.name = stripName "Alice") with
       | some r =>
           reg'.length = ([] : List Student).length ∧ n' = 1 ∧
           ∀ t ∈ ([] : List Student), t.id ≠ r.id → t ∈ reg'
       | none =>
           reg' = [] ++ [⟨1, stripName "Alice", 90, ["Row1"], none, 5⟩] ∧
           n' = 1 + 1)) :=
  ⟨⟨by decide, by decide, by decide⟩,
    c4_submit_upsert [] 1 ⟨"Alice", 90, ["Row1"]⟩ 5
      (by decide) (by decide) (by decide)⟩

/-- C5 counterexample: the claim requires a preferences list containing an
empty string to be rejected with a validation error and no write; the code
accepts `[""]` and inserts the record. -/
theorem c5_preferences_empty_string_accepted :
    api_submit [] 1 ⟨"Alice", 90, [""]⟩ 0 =
      .ok ([⟨1, "Alice", 90, [""], none, 0⟩], 2) := by
  rfl

/-- C5 (amended): submit validates only that the name is non-empty after
trimming, the score is non-negative, and the preferences are a non-empty
list — it does not inspect the list's entries. Any input violating one of
these three checked constraints fails with the validation error naming the
first violated field (checked in that order) and performs no write: the
state after the failed call is unchanged. -/
theorem c5_validation_amended (reg : List Student) (n : Nat) (req : SubmitReq)
    (now : Nat)
    (h : stripName req.name = "" ∨ req.score < 0 ∨ req.volunteers = []) :
    api_submit reg n req now =
      .error (if stripName req.name = "" then "name required"
              else if req.score < 0 then "score invalid"
              else "volunteers list required") ∧
    step (reg, n) (.submit req now) = (reg, n) := by
  have herr : api_submit reg n req now =
      .error (if stripName req.name = "" then "name required"
              else if req.score < 0 then "score invalid"
              else "volunteers list required") := by
    unfold api_submit
    by_cases h1 : stripName req.name = ""
    · rw [if_pos h1, if_pos h1]
    · rw [if_neg h1, if_neg h1]
      by_cases h2 : req.score < 0
      · rw [if_pos h2, if_pos h2]
      · rw [if_neg h2, if_neg h2]
        rcases h with h | h | h
        · exact absurd h h1
        · exact absurd h h2
        · rw [if_pos h]
  refine ⟨herr, ?_⟩
  simp only [step]
  rw [herr]

/-- C5 witness for the amended statement: a whitespace-only name is rejected
with the name error and the state is unchanged. -/
theorem c5_validation_amended_witness :
    (stripName "  " = "" ∨ (5 : Int) < 0 ∨ (["a"] : List String) = []) ∧
    (api_submit [] 1 ⟨"  ", 5, ["a"]⟩ 0 =
      .error (if stripName "  " = "" then "name required"
              else if (5 : Int) < 0 then "score invalid"
              else "volunteers list required") ∧
      step ([], 1) (.submit ⟨"  ", 5, ["a"]⟩ 0) = ([], 1)) :=
  ⟨Or.inl (by decide),
    c5_validation_amended [] 1 ⟨"  ", 5, ["a"]⟩ 0 (Or.inl (by decide))⟩

/-- C6: starting from the empty database, every operation sequence keeps the
registry's names distinct (at most one record per name), and a submit whose
stripped name already exists never changes the number of rows — it updates
in place instead of adding a second record. -/
theorem c6_name_uniqueness :
    (∀ ops : List Op, ((runOps ops).1.map Student.name).Nodup) ∧
    (∀ (reg : List Student) (n : Nat) (req : SubmitReq) (now : Nat),
      (∃ t ∈ reg, t.name = stripName req.name) →
      (step (reg, n) (.submit req now)).1.length = reg.length) := by
  constructor
  · intro ops
    exact (inv_runOps ops).1
  · rintro reg n req now ⟨t, ht, htn⟩
    cases hok : api_submit reg n req now with
    | error m => simp only [step, hok]
    | ok st' =>
        simp only [step, hok]
        unfold api_submit at hok
        by_cases h1 : stripName req.name = ""
        · rw [if_pos h1] at hok; simp at hok
        rw [if_neg h1] at hok
        by_cases h2 : req.score < 0
        · rw [if_pos h2] at hok; simp at hok
        rw [if_neg h2] at hok
        by_cases h3 : req.volunteers = []
        · rw [if_pos h3] at hok; simp at hok
        rw [if_neg h3] at hok
        cases hf : reg.find? (fun u => u.name = stripName req.name) with
        | none =>
            exfalso
            have := List.find?_eq_none.mp hf t ht
            simp at this
            exact this htn
        | some r =>
            rw [hf] at hok
            simp only [Except.ok.injEq] at hok
            rw [← hok]
            exact List.length_map _ _

/-- C6 witness: submitting `Alice` twice yields names `["Alice"]` without
duplicates, and the second submit (name already present) keeps one row. -/
theorem c6_name_uniqueness_witness :
    ((runOps [.submit ⟨"Alice", 90, ["Row1"]⟩ 0,
              .submit ⟨"Alice", 70, ["Row2"]⟩ 1]).1.map Student.name).Nodup ∧
    (∃ t ∈ ([⟨1, "Alice", 90, ["Row1"], none, 0⟩] : List Student),
      t.name = stripName "Alice") ∧
    (step ([⟨1, "Alice", 90, ["Row1"], none, 0⟩], 2)
        (.submit ⟨"Alice", 70, ["Row2"]⟩ 1)).1.length =
      ([⟨1, "Alice", 90, ["Row1"], none, 0⟩] : List Student).length :=
  ⟨c6_name_uniqueness.1 _,
    ⟨⟨1, "Alice", 90, ["Row1"], none, 0⟩, by decide, by decide⟩,
    c6_name_uniqueness.2 [⟨1, "Alice", 90, ["Row1"], none, 0⟩] 2
      ⟨"Alice", 70, ["Row2"]⟩ 1
      ⟨⟨1, "Alice", 90, ["Row1"], none, 0⟩, by decide, by decide⟩⟩

/-- C7: priority is respected under capacity — the canonical snapshot never
places a strictly higher-priority record (higher score, or equal score and
earlier `last_updated`) after a lower-priority one, and a record whose first
preference still has remaining quota at its turn is assigned exactly that
first preference; the pass writes these computed seats back into the
registry. -/
theorem c7_priority_respected (reg : List Student)
    (pre : List Student) (A : Student) (post : List Student)
    (hsnap : snapshotSort reg = pre ++ A :: post)
    (v : String) (vs : List String) (hvols : A.volunteers = v :: vs)
    (hcap : 0 < qget (quotaAfter (seedQuota (snapshotSort reg)) pre) v) :
    List.Pairwise (fun a b => ¬ keyLT b a) (snapshotSort reg) ∧
    api_assign reg =
      (reg.map (applyWrites
          (assignPure (snapshotSort reg) (seedQuota (snapshotSort reg))).1),
        (assignPure (snapshotSort reg) (seedQuota (snapshotSort reg))).2) ∧
    (assignPure (snapshotSort reg) (seedQuota (snapshotSort reg))).1 =
      (assignPure pre (seedQuota (snapshotSort reg))).1 ++
        (A.id, some v) ::
          (assignPure post
            (quotaAfter (seedQuota (snapshotSort reg)) (pre ++ [A]))).1 := by
  refine ⟨snapshotSort_sorted reg, api_assign_unfold reg, ?_⟩
  set q0 := seedQuota (snapshotSort reg) with hq0
  rw [hsnap, assignPure_append, quotaAfter_append]
  simp only [assignPure, quotaAfter]
  rw [hvols]
  rw [scanVols, if_pos hcap]

/-- C7 witness: two students both ranking `R` first; the snapshot keeps the
higher score first and the first record takes `R`. -/
theorem c7_priority_respected_witness :
    snapshotSort [⟨1, "A", 90, ["R"], none, 0⟩, ⟨2, "B", 85, ["R"], none, 1⟩] =
      [] ++ ⟨1, "A", 90, ["R"], none, 0⟩ :: [⟨2, "B", 85, ["R"], none, 1⟩] ∧
    (⟨1, "A", 90, ["R"], none, 0⟩ : Student).volunteers = "R" :: [] ∧
    0 < qget (quotaAfter (seedQuota (snapshotSort
        [⟨1, "A", 90, ["R"], none, 0⟩, ⟨2, "B", 85, ["R"], none, 1⟩])) []) "R" ∧
    (assignPure (snapshotSort [⟨1, "A", 90, ["R"], none, 0⟩,
        ⟨2, "B", 85, ["R"], none, 1⟩])
      (seedQuota (snapshotSort [⟨1, "A", 90, ["R"], none, 0⟩,
        ⟨2, "B", 85, ["R"], none, 1⟩]))).1 =
      (assignPure [] (seedQuota (snapshotSort [⟨1, "A", 90, ["R"], none, 0⟩,
        ⟨2, "B", 85, ["R"], none, 1⟩]))).1 ++
        (1, some "R") ::
          (assignPure [⟨2, "B", 85, ["R"], none, 1⟩]
            (quotaAfter (seedQuota (snapshotSort [⟨1, "A", 90, ["R"], none, 0⟩,
              ⟨2, "B", 85, ["R"], none, 1⟩])) ([] ++ [⟨1, "A", 90, ["R"], none, 0⟩]))).1 :=
  ⟨by decide, rfl, by decide,
    (c7_priority_respected
      [⟨1, "A", 90, ["R"], none, 0⟩, ⟨2, "B", 85, ["R"], none, 1⟩]
      [] ⟨1, "A", 90, ["R"], none, 0⟩ [⟨2, "B", 85, ["R"], none, 1⟩]
      (by decide) "R" [] rfl (by decide)).2.2⟩

/-- C8: in every state reachable from the empty database, a record with a
non-NULL admitted seat holds a seat drawn from its own current preference
list (allocation only assigns from the record's own preferences, and a
resubmission that replaces preferences clears the admission). -/
theorem c8_admitted_from_own_preferences (ops : List Op) (t : Student)
    (ht : t ∈ (runOps ops).1) (v : String) (hv : t.admitted = some v) :
    v ∈ t.volunteers :=
  (inv_runOps ops).2.2.2 t ht v hv

/-- C8 witness: after submitting `A` with preference `X` and allocating, the
admitted record's seat `X` is in its own preference list. -/
theorem c8_admitted_from_own_preferences_witness :
    (⟨1, "A", 1, ["X"], some "X", 0⟩ : Student) ∈
      (runOps [.submit ⟨"A", 1, ["X"]⟩ 0, .assign]).1 ∧
    (⟨1, "A", 1, ["X"], some "X", 0⟩ : Student).admitted = some "X" ∧
    "X" ∈ (⟨1, "A", 1, ["X"], some "X", 0⟩ : Student).volunteers :=
  ⟨by decide, rfl,
    c8_admitted_from_own_preferences [.submit ⟨"A", 1, ["X"]⟩ 0, .assign]
      ⟨1, "A", 1, ["X"], some "X", 0⟩ (by decide) "X" rfl⟩

/-- C9: a preference entry that is not a key of the quota dictionary never
matches capacity (`seat_quota.get(vol, 0)` defaults to 0); a snapshot record
none of whose preference entries is a known seat ends the pass with a NULL
admitted seat, and the pass handles such input without error, continuing
with the remaining records on an unchanged quota. -/
theorem c9_unknown_seat_never_assigned (reg : List Student)
    (pre : List Student) (s : Student) (post : List Student)
    (hsnap : snapshotSort reg = pre ++ s :: post)
    (hnoseat : ∀ v ∈ s.volunteers, ¬ qhas (seedQuota (snapshotSort reg)) v) :
    api_assign reg =
      (reg.map (applyWrites
          (assignPure (snapshotSort reg) (seedQuota (snapshotSort reg))).1),
        (assignPure (snapshotSort reg) (seedQuota (snapshotSort reg))).2) ∧
    (∀ (q : Quota) (vs : List String) (w : String),
      ¬ qhas q w → (scanVols s q vs).1 ≠ some w) ∧
    (assignPure (snapshotSort reg) (seedQuota (snapshotSort reg))).1 =
      (assignPure pre (seedQuota (snapshotSort reg))).1 ++
        (s.id, none) ::
          (assignPure post
            (quotaAfter (seedQuota (snapshotSort reg)) (pre ++ [s]))).1 := by
  refine ⟨api_assign_unfold reg, ?_, ?_⟩
  · intro q vs w hq hres
    obtain ⟨hpos, _, _⟩ := scanVols_eq_of_some hres
    rw [qget_of_not_qhas hq] at hpos
    exact absurd hpos (by omega)
  · set q0 := seedQuota (snapshotSort reg) with hq0
    rw [hsnap, assignPure_append, quotaAfter_append]
    have hnone : (scanVols s (quotaAfter q0 pre) s.volunteers).1 = none := by
      rw [scanVols_none_iff]
      intro v hv
      have h1 : ¬ qhas (quotaAfter q0 pre) v := by
        rw [qhas_quotaAfter]
        exact hnoseat v hv
      rw [qget_of_not_qhas h1]
    have heq := scanVols_eq_of_none hnone
    simp only [assignPure, quotaAfter]
    rw [heq]

/-- C9 witness: a record with an empty preference list — every entry of it
(vacuously) references no seat — ends the pass unassigned. -/
theorem c9_unknown_seat_never_assigned_witness :
    snapshotSort [(⟨1, "x", 5, [], none, 0⟩ : Student)] =
      [] ++ (⟨1, "x", 5, [], none, 0⟩ : Student) :: [] ∧
    (∀ v ∈ (⟨1, "x", 5, [], none, 0⟩ : Student).volunteers,
      ¬ qhas (seedQuota (snapshotSort [(⟨1, "x", 5, [], none, 0⟩ : Student)])) v) ∧
    (assignPure (snapshotSort [(⟨1, "x", 5, [], none, 0⟩ : Student)])
        (seedQuota (snapshotSort [(⟨1, "x", 5, [], none, 0⟩ : Student)]))).1 =
      (assignPure [] (seedQuota (snapshotSort [(⟨1, "x", 5, [], none, 0⟩ : Student)]))).1 ++
        (1, none) ::
          (assignPure []
            (quotaAfter (seedQuota (snapshotSort [(⟨1, "x", 5, [], none, 0⟩ : Student)]))
              ([] ++ [(⟨1, "x", 5, [], none, 0⟩ : Student)]))).1 :=
  ⟨by decide, by decide,
    (c9_unknown_seat_never_assigned [(⟨1, "x", 5, [], none, 0⟩ : Student)]
      [] ⟨1, "x", 5, [], none, 0⟩ [] (by decide) (by decide)).2.2⟩

/-- C10: the quota dictionary is seeded with capacity 2 for every string
appearing in any snapshot record's preference list (the empty string
included), so the first record of a non-empty snapshot is always assigned
its first preference entry. -/
theorem c10_first_record_first_choice (reg : List Student) (A : Student)
    (rest : List Student) (hsnap : snapshotSort reg = A :: rest)
    (v : String) (vs : List String) (hvols : A.volunteers = v :: vs) :
    api_assign reg =
      (reg.map (applyWrites
          (assignPure (snapshotSort reg) (seedQuota (snapshotSort reg))).1),
        (assignPure (snapshotSort reg) (seedQuota (snapshotSort reg))).2) ∧
    (∀ s ∈ snapshotSort reg, ∀ w ∈ s.volunteers,
      qget (seedQuota (snapshotSort reg)) w = 2) ∧
    (assignPure (snapshotSort reg) (seedQuota (snapshotSort reg))).1 =
      (A.id, some v) ::
        (assignPure rest (qdec (seedQuota (snapshotSort reg)) v)).1 := by
  have hA : A ∈ snapshotSort reg := by
    rw [hsnap]; exact List.mem_cons_self _ _
  have hvmem : v ∈ A.volunteers := by
    rw [hvols]; exact List.mem_cons_self _ _
  refine ⟨api_assign_unfold reg, ?_, ?_⟩
  · intro s hs w hw
    rw [qget_seedQuota, if_pos (mem_allVols hs hw)]
  · have hcap : 0 < qget (seedQuota (snapshotSort reg)) v := by
      rw [qget_seedQuota, if_pos (mem_allVols hA hvmem)]
      norm_num
    set q0 := seedQuota (snapshotSort reg) with hq0
    rw [hsnap]
    simp only [assignPure]
    rw [hvols, scanVols, if_pos hcap]

/-- C10 witness: a single record whose only preference is the empty string —
the empty string is seeded with quota 2 and the record is assigned it. -/
theorem c10_first_record_first_choice_witness :
    snapshotSort [(⟨1, "x", 5, [""], none, 0⟩ : Student)] =
      (⟨1, "x", 5, [""], none, 0⟩ : Student) :: [] ∧
    (⟨1, "x", 5, [""], none, 0⟩ : Student).volunteers = "" :: [] ∧
    (assignPure (snapshotSort [(⟨1, "x", 5, [""], none, 0⟩ : Student)])
        (seedQuota (snapshotSort [(⟨1, "x", 5, [""], none, 0⟩ : Student)]))).1 =
      (1, some "") ::
        (assignPure []
          (qdec (seedQuota (snapshotSort [(⟨1, "x", 5, [""], none, 0⟩ : Student)])) "")).1 :=
  ⟨by decide, rfl,
    (c10_first_record_first_choice [(⟨1, "x", 5, [""], none, 0⟩ : Student)]
      ⟨1, "x", 5, [""], none, 0⟩ [] (by decide) "" [] rfl).2.2⟩

end SeatAlloc
